import Mathlib

/-!
Verification of the mtg deck-ingestion pipeline.

Part 1 models the Flink job
`flink/src/main/java/com/mtg/flink/DeckValueProcessor.java`:
the per-window reduce over deck-card events, the map to a deck value,
the JSON output event, the price-event parse, and the tumbling window
assignment the job instantiates (`TumblingProcessingTimeWindows.of(Time.seconds(10))`,
whose assignment is `timestamp - (timestamp - offset + windowSize) % windowSize`
with Java's truncating remainder, offset 0 and windowSize 10000 ms).

Java `double` values are modelled as `Rat`: every value reachable in the
modelled code is an integer multiple of small constants (5.0, a parsed
price) and all arithmetic performed on them (`int * 5.0`) is exact in
binary64 for the reachable range, so the rational model is exact.
Java `int` is modelled as `Int` reduced by `wrap32` wherever the code adds
two of them (Java addition wraps at 2^31).  Wall-clock fields
(`System.currentTimeMillis()`) carry no information used by any claim and
are omitted from the modelled records; the random `UUID` drawn in the
output map is made an explicit argument of the output function.
-/

/-- Two's-complement wrap-around of Java 32-bit `int` addition results. -/
def wrap32 (x : Int) : Int := (x + 2 ^ 31) % 2 ^ 32 - 2 ^ 31

/-- Two's-complement wrap-around for Go's 64-bit `int`. -/
def wrap64 (x : Int) : Int := (x + 2 ^ 63) % 2 ^ 64 - 2 ^ 63

/-- `DeckValueProcessor.DeckCard`: one deck-card event (also the reduce
accumulator, whose `cardName` accumulates a comma-joined string). -/
structure DeckCard where
  deckId : String
  deckName : String
  cardName : String
  quantity : Int
deriving DecidableEq

/-- `DeckValueProcessor.DeckValue` (timestamp field omitted, see header). -/
structure DeckValue where
  deckId : String
  deckName : String
  totalCards : Int
  totalValue : Rat
deriving DecidableEq

/-- `DeckValueProcessor.CardPrice`. -/
structure CardPrice where
  cardId : String
  price : Rat
deriving DecidableEq

/-- The window `ReduceFunction` (lines 114-125): keeps the left event's
deck id and name, concatenates the card names with a comma, adds the
quantities (Java `int` addition, wrapping). -/
def reduceDeckCard (card1 card2 : DeckCard) : DeckCard :=
  { deckId := card1.deckId
    deckName := card1.deckName
    cardName := card1.cardName ++ "," ++ card2.cardName
    quantity := wrap32 (card1.quantity + card2.quantity) }

/-- The `DeckCard -> DeckValue` map (lines 126-141): a flat estimate of
$5 per card; `totalCards` is the reduced quantity. -/
def deckCardToValue (aggregated : DeckCard) : DeckValue :=
  { deckId := aggregated.deckId
    deckName := aggregated.deckName
    totalCards := aggregated.quantity
    totalValue := (aggregated.quantity : Rat) * 5 }

/-- Flink's windowed `reduce` applied to the events of one closed window
in arrival order: the first event seeds the accumulator, the rest are
folded with the `ReduceFunction`; an empty window emits nothing. -/
def windowReduce : List DeckCard → Option DeckCard
  | [] => none
  | card :: rest => some (rest.foldl reduceDeckCard card)

/-- One window's pipeline result: reduce, then the value map. -/
def processWindow (events : List DeckCard) : Option DeckValue :=
  (windowReduce events).map deckCardToValue

/-- The JSON output event built by the `DeckValue -> String` map
(lines 144-165).  `eventId` is `UUID.randomUUID().toString()` in the
source; the drawn UUID is the explicit `uuid` argument here. -/
structure DeckValueEvent where
  eventType : String
  eventId : String
  deckId : String
  deckName : String
  totalCards : Int
  totalValue : Rat
deriving DecidableEq

/-- The `DeckValue -> String` output map (lines 144-165), with the random
UUID draw made explicit. -/
def deckValueToJson (uuid : String) (value : DeckValue) : DeckValueEvent :=
  { eventType := "deck.value.calculated"
    eventId := uuid
    deckId := value.deckId
    deckName := value.deckName
    totalCards := value.totalCards
    totalValue := value.totalValue }

/-- The price-event parse (lines 94-108): `card_uuid` is read and the
`price` field defaults to `0.0` when absent
(`data.has("price") ? data.get("price").asDouble() : 0.0`). -/
def parseCardPrice (cardUuid : String) (priceField : Option Rat) : CardPrice :=
  { cardId := cardUuid, price := priceField.getD 0 }

/-- Flink's `TimeWindow.getWindowStartWithOffset`, used by the tumbling
assigner the job instantiates; `%` is Java's truncating remainder
(`Int.tmod`). -/
def flinkWindowStart (timestamp offset windowSize : Int) : Int :=
  timestamp - Int.tmod (timestamp - offset + windowSize) windowSize

/-- The job's window size: `Time.seconds(10)` = 10000 ms (line 113). -/
def windowSizeMs : Int := 10000

/-- Window-start assignment as configured on line 113 (offset 0). -/
def assignWindowStart (timestamp : Int) : Int :=
  flinkWindowStart timestamp 0 windowSizeMs

/-- Modelled from the spec: the Price Side-Table lookup of sections 3
and 4.2 (`lookup` returns the table's entry for the item, or the
configured default price when the item is unknown).  The source's Flink
job has no such lookup; this definition exists to compare the specified
valuation with the code's. -/
def specPriceLookup (table : List (String × Rat)) (defaultPrice : Rat)
    (item : String) : Rat :=
  (table.lookup item).getD defaultPrice

/-- Modelled from the spec: the window-value invariant of section 3,
`accumulated_value = sum over items of quantity * price(item)`. -/
def specWindowValue (table : List (String × Rat)) (defaultPrice : Rat)
    (events : List DeckCard) : Rat :=
  (events.map (fun e => (e.quantity : Rat) * specPriceLookup table defaultPrice e.cardName)).sum

/-- The scenario's `Bolt` quantity event (spec section 8). -/
def boltEvent : DeckCard :=
  { deckId := "deck-alpha", deckName := "Alpha", cardName := "Bolt", quantity := 4 }

/-- The scenario's `Lotus` quantity event (spec section 8). -/
def lotusEvent : DeckCard :=
  { deckId := "deck-alpha", deckName := "Alpha", cardName := "Lotus", quantity := 1 }

/-- The scenario window's events, in arrival order. -/
def alphaWindow : List DeckCard := [boltEvent, lotusEvent]

/-- The scenario's price side-table: `Bolt -> 2.00`, no entry for `Lotus`. -/
def scenarioTable : List (String × Rat) := [("Bolt", 2)]

/-- Projection of the window fold onto the quantity field. -/
def wrapQuantitySum : List DeckCard → Int
  | [] => 0
  | card :: rest => rest.foldl (fun acc e => wrap32 (acc + e.quantity)) card.quantity

theorem foldl_reduce_quantity (rest : List DeckCard) :
    ∀ card : DeckCard, (rest.foldl reduceDeckCard card).quantity =
      rest.foldl (fun acc e => wrap32 (acc + e.quantity)) card.quantity := by
  induction rest with
  | nil => intro card; rfl
  | cons e rest ih =>
      intro card
      simp only [List.foldl_cons]
      exact ih (reduceDeckCard card e)

/-- Helper: every emitted window value is the flat $5 estimate applied to
the (wrapped) quantity total of the window. -/
theorem processWindow_flat (events : List DeckCard) (value : DeckValue)
    (h : processWindow events = some value) :
    value.totalValue = 5 * (value.totalCards : Rat) ∧
    value.totalCards = wrapQuantitySum events := by
  cases events with
  | nil => simp [processWindow, windowReduce] at h
  | cons card rest =>
      simp only [processWindow, windowReduce, Option.map_some', Option.some.injEq] at h
      subst h
      refine ⟨by simp [deckCardToValue, mul_comm], ?_⟩
      simp only [deckCardToValue, wrapQuantitySum]
      exact foldl_reduce_quantity rest card

theorem foldl_wrap32_sum (l : List DeckCard) :
    ∀ a : Int, l ≠ [] →
      l.foldl (fun acc e => wrap32 (acc + e.quantity)) a =
        wrap32 (a + (l.map DeckCard.quantity).sum) := by
  induction l with
  | nil => intro a h; exact absurd rfl h
  | cons e rest ih =>
      intro a _
      rw [List.foldl_cons]
      cases rest with
      | nil =>
          simp only [List.foldl_nil, List.map_cons, List.map_nil, List.sum_cons,
            List.sum_nil, wrap32]
          omega
      | cons e2 rest2 =>
          rw [ih (wrap32 (a + e.quantity)) (by simp)]
          simp only [List.map_cons, List.sum_cons, wrap32]
          omega

theorem processWindow_value_cons (c : DeckCard) (rest : List DeckCard) :
    Option.map DeckValue.totalValue (processWindow (c :: rest)) =
      some ((rest.foldl (fun acc e => wrap32 (acc + e.quantity)) c.quantity : Int) * 5) := by
  simp [processWindow, windowReduce, deckCardToValue, foldl_reduce_quantity]

/-- C1 counterexample: on the spec's scenario window (`Bolt` x4, `Lotus` x1,
side-table `Bolt -> 2.00`, default 5.00) the code emits
`total_cards = 5` but `total_value = 25.00`, not the specified
`4 * 2.00 + 1 * 5.00 = 13.00`: the Flink job prices every card at the flat
constant 5.0 and never consults the price stream. -/
theorem c1_counterexample :
    processWindow alphaWindow =
      some { deckId := "deck-alpha", deckName := "Alpha", totalCards := 5, totalValue := 25 } ∧
    specWindowValue scenarioTable 5 alphaWindow = 13 ∧
    (25 : Rat) ≠ 13 := by
  have hBolt : specPriceLookup scenarioTable 5 "Bolt" = 2 := by
    simp [specPriceLookup, scenarioTable, List.lookup]
  have hLotus : specPriceLookup scenarioTable 5 "Lotus" = 5 := by
    simp [specPriceLookup, scenarioTable, List.lookup]
  refine ⟨?_, ?_, by norm_num⟩
  · norm_num [processWindow, windowReduce, deckCardToValue, reduceDeckCard, alphaWindow,
      boltEvent, lotusEvent, wrap32]
  · simp only [specWindowValue, alphaWindow, boltEvent, lotusEvent, List.map_cons,
      List.map_nil, List.sum_cons, List.sum_nil, hBolt, hLotus]
    norm_num

/-- C1 (corrected): the emitted aggregate value is not the side-table join
of the spec; it is the flat estimate `5.00 x total quantity` (the reduced,
32-bit-wrapped quantity sum of the window), independent of any price data.
On the scenario this gives `total_items = 5`, `total_value = 25.00`. -/
theorem c1_amended_thm (events : List DeckCard) (value : DeckValue)
    (h : processWindow events = some value) :
    value.totalValue = 5 * (value.totalCards : Rat) ∧
    value.totalCards = wrapQuantitySum events :=
  processWindow_flat events value h

/-- C1 witness: the amended claim evaluated on the scenario window. -/
theorem c1_amended_witness :
    processWindow alphaWindow =
      some { deckId := "deck-alpha", deckName := "Alpha", totalCards := 5, totalValue := 25 } ∧
    (({ deckId := "deck-alpha", deckName := "Alpha", totalCards := 5, totalValue := 25 } :
        DeckValue).totalValue = 5 *
          ((({ deckId := "deck-alpha", deckName := "Alpha", totalCards := 5, totalValue := 25 } :
            DeckValue).totalCards : Int) : Rat) ∧
      ({ deckId := "deck-alpha", deckName := "Alpha", totalCards := 5, totalValue := 25 } :
        DeckValue).totalCards = wrapQuantitySum alphaWindow) :=
  have h : processWindow alphaWindow =
      some { deckId := "deck-alpha", deckName := "Alpha", totalCards := 5, totalValue := 25 } := by
    norm_num [processWindow, windowReduce, deckCardToValue, reduceDeckCard, alphaWindow,
      boltEvent, lotusEvent, wrap32]
  ⟨h, c1_amended_thm alphaWindow _ h⟩

/-- C2 counterexample: applying the `Bolt` event twice to a fresh window
yields `total_cards = 8`, `total_value = 40.00`, while applying it once
yields `4` and `20.00` — the reduce has no event-id deduplication, so a
duplicate delivery is double-counted, contradicting the claimed idempotence. -/
theorem c2_counterexample :
    processWindow [boltEvent, boltEvent] =
      some { deckId := "deck-alpha", deckName := "Alpha", totalCards := 8, totalValue := 40 } ∧
    processWindow [boltEvent] =
      some { deckId := "deck-alpha", deckName := "Alpha", totalCards := 4, totalValue := 20 } ∧
    ((8 : Int) ≠ 4 ∧ (40 : Rat) ≠ 20) := by
  refine ⟨?_, ?_, by decide, by norm_num⟩ <;>
    norm_num [processWindow, windowReduce, deckCardToValue, reduceDeckCard,
      boltEvent, wrap32]

/-- C2 (corrected): the window reduce performs no deduplication: applying a
quantity event twice to a fresh window counts its quantity twice
(`total_cards = quantity + quantity`, 32-bit wrapped, and
`total_value = 5.00 x that`), not once as the claim states. -/
theorem c2_amended_thm (e : DeckCard) :
    Option.map DeckValue.totalCards (processWindow [e, e]) =
      some (wrap32 (e.quantity + e.quantity)) ∧
    Option.map DeckValue.totalCards (processWindow [e]) = some e.quantity ∧
    Option.map DeckValue.totalValue (processWindow [e, e]) =
      some ((wrap32 (e.quantity + e.quantity) : Rat) * 5) :=
  ⟨rfl, rfl, rfl⟩

/-- The scenario's emitted deck value, used by the emission-layer claims. -/
def alphaValue : DeckValue :=
  { deckId := "deck-alpha", deckName := "Alpha", totalCards := 5, totalValue := 25 }

/-- C3 counterexample: two emissions of the very same window aggregate under
different random UUID draws carry different `eventId`s — the snapshot id is
the random draw itself, not a deterministic function of
`(collection_id, window_start, window_end)`. -/
theorem c3_counterexample :
    (deckValueToJson "7f3a0d2e-1111-4aaa-8bbb-000000000001" alphaValue).eventId =
      "7f3a0d2e-1111-4aaa-8bbb-000000000001" ∧
    (deckValueToJson "b2c41e99-2222-4ccc-8ddd-000000000002" alphaValue).eventId =
      "b2c41e99-2222-4ccc-8ddd-000000000002" ∧
    "7f3a0d2e-1111-4aaa-8bbb-000000000001" ≠ "b2c41e99-2222-4ccc-8ddd-000000000002" := by
  refine ⟨rfl, rfl, by decide⟩

/-- C3 (corrected): the emitted `eventId` equals the freshly drawn random
UUID and does not depend on the aggregate (collection or window) at all, so
reprocessing the same window under a different draw produces a different id. -/
theorem c3_amended_thm (uuid : String) (v w : DeckValue) :
    (deckValueToJson uuid v).eventId = uuid ∧
    (deckValueToJson uuid v).eventId = (deckValueToJson uuid w).eventId :=
  ⟨rfl, rfl⟩

/-- C4 (confirmed): for a fixed window, the emitted `total_value` is
invariant under permutation of the window's events: it depends only on the
(wrapped) sum of the quantities, which is order-independent. -/
theorem c4_order_independence (es es' : List DeckCard) (h : es.Perm es') :
    Option.map DeckValue.totalValue (processWindow es) =
      Option.map DeckValue.totalValue (processWindow es') := by
  cases es with
  | nil =>
      have : es' = [] := (List.Perm.eq_nil h.symm)
      subst this; rfl
  | cons a as =>
      cases es' with
      | nil => exact absurd (List.Perm.eq_nil h) (by simp)
      | cons b bs =>
          cases as with
          | nil =>
              have hb : b :: bs = [a] := List.perm_singleton.mp h.symm
              rw [hb]
          | cons a2 as2 =>
              cases bs with
              | nil =>
                  have := h.length_eq
                  simp at this
              | cons b2 bs2 =>
                  rw [processWindow_value_cons, processWindow_value_cons]
                  rw [foldl_wrap32_sum _ _ (by simp), foldl_wrap32_sum _ _ (by simp)]
                  have hsum : ((a :: a2 :: as2).map DeckCard.quantity).sum =
                      ((b :: b2 :: bs2).map DeckCard.quantity).sum :=
                    (h.map DeckCard.quantity).sum_eq
                  simp only [List.map_cons, List.sum_cons] at hsum ⊢
                  rw [show a.quantity + (a2.quantity + (as2.map DeckCard.quantity).sum) =
                        b.quantity + (b2.quantity + (bs2.map DeckCard.quantity).sum) from hsum]

/-- C4 witness: order independence on the scenario window and its swap. -/
theorem c4_witness :
    alphaWindow.Perm [lotusEvent, boltEvent] ∧
    Option.map DeckValue.totalValue (processWindow alphaWindow) =
      Option.map DeckValue.totalValue (processWindow [lotusEvent, boltEvent]) :=
  ⟨List.Perm.swap lotusEvent boltEvent [],
   c4_order_independence _ _ (List.Perm.swap lotusEvent boltEvent [])⟩

/-- C5 (confirmed): the tumbling assignment the job instantiates
(`TumblingProcessingTimeWindows.of(Time.seconds(10))`, offset 0) maps a
nonnegative timestamp `ts` to window start `floor(ts / 10000) * 10000`, so
`ts` lies in the half-open window `[start, start + 10000)`; a timestamp
equal to a window's end boundary starts the next window (its assigned
start is the boundary itself, not the closing window's start). -/
theorem c5_window_assignment (ts : Int) (h : 0 ≤ ts) :
    assignWindowStart ts = windowSizeMs * (ts / windowSizeMs) ∧
    (assignWindowStart ts ≤ ts ∧ ts < assignWindowStart ts + windowSizeMs) ∧
    assignWindowStart (assignWindowStart ts + windowSizeMs) =
      assignWindowStart ts + windowSizeMs ∧
    assignWindowStart ts + windowSizeMs ≠ assignWindowStart ts := by
  have key : ∀ u : Int, 0 ≤ u → assignWindowStart u = u - (u + 10000) % 10000 := by
    intro u hu
    unfold assignWindowStart flinkWindowStart windowSizeMs
    simp only [sub_zero]
    rw [Int.tmod_eq_emod (by omega) (by omega)]
  have e1 := key ts h
  have h0 : 0 ≤ assignWindowStart ts := by rw [e1]; omega
  have e2 := key (assignWindowStart ts + 10000) (by omega)
  refine ⟨?_, ⟨?_, ?_⟩, ?_, ?_⟩ <;> (try simp only [windowSizeMs]) <;> omega

/-- C5 witness: the assignment evaluated at timestamp 12345 ms. -/
theorem c5_witness :
    (0 : Int) ≤ 12345 ∧
    (assignWindowStart 12345 = windowSizeMs * (12345 / windowSizeMs) ∧
      (assignWindowStart 12345 ≤ 12345 ∧
        (12345 : Int) < assignWindowStart 12345 + windowSizeMs) ∧
      assignWindowStart (assignWindowStart 12345 + windowSizeMs) =
        assignWindowStart 12345 + windowSizeMs ∧
      assignWindowStart 12345 + windowSizeMs ≠ assignWindowStart 12345) :=
  ⟨by decide, c5_window_assignment 12345 (by decide)⟩

/-- C6 counterexample: the code's only absent-price fallback is in the
price-event parse, where a missing `price` field silently becomes `0.0` —
the zero the claim says the default is distinct from (the flat constant the
valuation actually uses is 5.0, and it never reads the table at all). -/
theorem c6_counterexample :
    (parseCardPrice "some-card-uuid" none).price = 0 ∧ (0 : Rat) ≠ 5 := by
  refine ⟨rfl, by decide⟩

/-- C6 (corrected): price handling is total and gives the aggregator no
error path, but not via a side-table with a distinct non-zero default: a
price event with a missing `price` field parses to the silent zero `0.0`
(a present field parses to its value), and the window valuation never
consults prices at all — every emitted value is the flat `5.00 x quantity`. -/
theorem c6_amended_thm (cardUuid : String) (p : Rat) (events : List DeckCard)
    (value : DeckValue) (h : processWindow events = some value) :
    (parseCardPrice cardUuid none).price = 0 ∧
    (parseCardPrice cardUuid (some p)).price = p ∧
    value.totalValue = 5 * (value.totalCards : Rat) :=
  ⟨rfl, rfl, (processWindow_flat events value h).1⟩

/-- C6 witness: the amended claim evaluated on the scenario window. -/
theorem c6_amended_witness :
    processWindow alphaWindow = some alphaValue ∧
    ((parseCardPrice "some-card-uuid" none).price = 0 ∧
      (parseCardPrice "some-card-uuid" (some 2)).price = 2 ∧
      alphaValue.totalValue = 5 * (alphaValue.totalCards : Rat)) :=
  have h : processWindow alphaWindow = some alphaValue := by
    norm_num [processWindow, windowReduce, deckCardToValue, reduceDeckCard, alphaWindow,
      boltEvent, lotusEvent, wrap32, alphaValue]
  ⟨h, c6_amended_thm "some-card-uuid" 2 alphaWindow alphaValue h⟩

/-!
Part 2 models the two Go deck-file readers:
`Ingester.IngestFile` in `internal/deck/ingester.go` (regex-based, via
`bufio.Scanner`) and `ingestDeckFile` in `cmd/deck-ingester/main.go`
(hand-rolled `splitLines`/`trimSpace`/`SplitN`).  File contents and card
names are `List Char`.  Go `int` is 64-bit here; `strconv.Atoi` errors on
overflow (modelled by `none`), and the `totalCards += quantity`
accumulation wraps (`wrap64`).  The regex `^(\d+)\s+(.+)$` is modelled by
its matching semantics on a scanner line (which never contains a newline):
a nonempty maximal digit run, a nonempty maximal `[\t\n\f\r ]` run, and a
nonempty remainder, reproducing Go's leftmost-greedy match on such lines.
-/

/-- Go `unicode.IsSpace`, the class trimmed by `strings.TrimSpace`:
`\t \n \v \f \r`, space, NEL, NBSP and the Unicode `White_Space` points. -/
def isGoUnicodeSpace (c : Char) : Bool :=
  decide (c.toNat = 0x09 ∨ c.toNat = 0x0A ∨ c.toNat = 0x0B ∨ c.toNat = 0x0C ∨
    c.toNat = 0x0D ∨ c.toNat = 0x20 ∨ c.toNat = 0x85 ∨ c.toNat = 0xA0 ∨
    c.toNat = 0x1680 ∨ (0x2000 ≤ c.toNat ∧ c.toNat ≤ 0x200A) ∨
    c.toNat = 0x2028 ∨ c.toNat = 0x2029 ∨ c.toNat = 0x202F ∨
    c.toNat = 0x205F ∨ c.toNat = 0x3000)

/-- The hand-rolled `isSpace` of `cmd/deck-ingester/main.go`: space, tab,
newline, carriage return only. -/
def isAsciiSpaceGo (c : Char) : Bool :=
  decide (c.toNat = 0x20 ∨ c.toNat = 0x09 ∨ c.toNat = 0x0A ∨ c.toNat = 0x0D)

/-- Go regexp's character class `\s` = `[\t\n\f\r ]`. -/
def isRegexSpace (c : Char) : Bool :=
  decide (c.toNat = 0x09 ∨ c.toNat = 0x0A ∨ c.toNat = 0x0C ∨ c.toNat = 0x0D ∨
    c.toNat = 0x20)

/-- Go regexp's character class `\d` = ASCII digits. -/
def isDigitChar (c : Char) : Bool := decide (0x30 ≤ c.toNat ∧ c.toNat ≤ 0x39)

/-- Remove the characters satisfying `p` from both ends of a list. -/
def trimBy (p : Char → Bool) (l : List Char) : List Char :=
  ((l.dropWhile p).reverse.dropWhile p).reverse

/-- `strings.TrimSpace`. -/
def goTrimSpace (l : List Char) : List Char := trimBy isGoUnicodeSpace l

/-- The hand-rolled `trimSpace` of `cmd/deck-ingester/main.go`. -/
def asciiTrim (l : List Char) : List Char := trimBy isAsciiSpaceGo l

/-- The hand-rolled `splitLines` of `cmd/deck-ingester/main.go`: split at
every `'\n'`, keep an unterminated final chunk, produce no chunk after a
final newline.  `bufio.Scanner` with `ScanLines` (used by
`Ingester.IngestFile`) yields the same chunks, each with one trailing
`'\r'` dropped (`dropTrailingCR`). -/
def splitOnNl : List Char → List (List Char)
  | [] => []
  | c :: cs =>
    if c = '\n' then [] :: splitOnNl cs
    else
      match splitOnNl cs with
      | [] => [[c]]
      | l :: ls => (c :: l) :: ls

/-- `bufio.ScanLines`' `dropCR`: remove one trailing carriage return. -/
def dropTrailingCR (l : List Char) : List Char :=
  if l.getLast? = some '\r' then l.dropLast else l

/-- `strings.HasPrefix` / the hand-rolled `hasPrefix`. -/
def startsWithChars : List Char → List Char → Bool
  | [], _ => true
  | _ :: _, [] => false
  | p :: ps, c :: cs => p == c && startsWithChars ps cs

/-- Decimal value of a digit string. -/
def digitsToNat (l : List Char) : Nat :=
  l.foldl (fun acc c => 10 * acc + (c.toNat - 0x30)) 0

/-- `strconv.Atoi` on a 64-bit platform: an optional sign followed by a
nonempty digit string; `none` (an error in Go) on any other shape and on
overflow of `int64`. -/
def goAtoi (s : List Char) : Option Int :=
  match s with
  | [] => none
  | c :: rest =>
    let ds : List Char := if c == '-' || c == '+' then rest else s
    if ds = [] then none
    else if ds.all isDigitChar then
      if c == '-' then
        if digitsToNat ds ≤ 2 ^ 63 then some (-(digitsToNat ds : Int)) else none
      else
        if digitsToNat ds ≤ 2 ^ 63 - 1 then some ((digitsToNat ds : Int)) else none
    else none

/-- One loop iteration of `Ingester.IngestFile` (lines 106-129 of
`internal/deck/ingester.go`): `strings.TrimSpace`, skip blank and
comment lines, match `^(\d+)\s+(.+)$`, `strconv.Atoi` the digit capture
(log and skip on error), `strings.TrimSpace` the name capture.  Returns
the `(quantity, cardName)` entry appended to the deck, or `none` when the
line contributes nothing. -/
def ingesterParseLine (raw : List Char) : Option (Int × List Char) :=
  let line := goTrimSpace raw
  if line.isEmpty || startsWithChars ['/', '/'] line || startsWithChars ['#'] line then
    none
  else
    let digits := line.takeWhile isDigitChar
    let afterDigits := line.dropWhile isDigitChar
    let gap := afterDigits.takeWhile isRegexSpace
    let rest := afterDigits.dropWhile isRegexSpace
    if digits.isEmpty || gap.isEmpty || rest.isEmpty then none
    else
      match goAtoi digits with
      | none => none
      | some q => some (q, goTrimSpace rest)

/-- One loop iteration of `ingestDeckFile` (lines 144-167 of
`cmd/deck-ingester/main.go`): `trimSpace`, skip blank and comment lines,
`strings.SplitN(line, " ", 2)` (two parts exactly when the line contains a
space), `strconv.Atoi` the first part, require `quantity > 0` and a
nonempty trimmed name. -/
def deckIngesterParseLine (raw : List Char) : Option (Int × List Char) :=
  let line := asciiTrim raw
  if line.isEmpty || startsWithChars ['/', '/'] line || startsWithChars ['#'] line then
    none
  else if line.contains ' ' then
    let word := line.takeWhile (fun c => !(c == ' '))
    let rest := (line.dropWhile (fun c => !(c == ' '))).tail
    match goAtoi word with
    | some q =>
      if 0 < q then
        let name := asciiTrim rest
        if name.isEmpty then none else some (q, name)
      else none
    | none => none
  else none

/-- The entries `Ingester.IngestFile` appends, over a whole file. -/
def ingestFileCards (content : List Char) : List (Int × List Char) :=
  ((splitOnNl content).map dropTrailingCR).filterMap ingesterParseLine

/-- The entries `ingestDeckFile` appends, over a whole file. -/
def ingestDeckFileCards (content : List Char) : List (Int × List Char) :=
  (splitOnNl content).filterMap deckIngesterParseLine

/-- The deck fields both readers return: the card entries, `total_cards`
(accumulated by `totalCards += quantity`, Go `int` addition), and
`unique_cards` (`len(cards)`). -/
structure GoDeck where
  cards : List (Int × List Char)
  totalCards : Int
  uniqueCards : Nat
deriving DecidableEq

/-- The `totalCards += quantity` accumulation over the card entries. -/
def sumQuantities64 (cards : List (Int × List Char)) : Int :=
  cards.foldl (fun acc c => wrap64 (acc + c.1)) 0

/-- The deck returned by `Ingester.IngestFile` (random id, name and
timestamp fields omitted; they are not part of any claim). -/
def ingesterDeckOf (content : List Char) : GoDeck :=
  { cards := ingestFileCards content
    totalCards := sumQuantities64 (ingestFileCards content)
    uniqueCards := (ingestFileCards content).length }

/-- The deck map returned by `ingestDeckFile`. -/
def deckIngesterDeckOf (content : List Char) : GoDeck :=
  { cards := ingestDeckFileCards content
    totalCards := sumQuantities64 (ingestDeckFileCards content)
    uniqueCards := (ingestDeckFileCards content).length }

/-!
List and trimming lemmas used by the parser claims.
-/

theorem filterMap_skip {α β : Type} (f : α → Option β) (x : α) (hx : f x = none)
    (pre post : List α) :
    (pre ++ x :: post).filterMap f = (pre ++ post).filterMap f := by
  simp [List.filterMap_append, List.filterMap_cons, hx]

theorem dropWhile_head_false {p : Char → Bool} :
    ∀ {l : List Char} {c : Char} {cs : List Char}, l.dropWhile p = c :: cs → p c = false := by
  intro l
  induction l with
  | nil => intro c cs h; simp at h
  | cons a l ih =>
      intro c cs h
      by_cases hpa : p a = true
      · rw [List.dropWhile_cons, if_pos hpa] at h
        exact ih h
      · rw [List.dropWhile_cons, if_neg hpa] at h
        obtain ⟨h1, h2⟩ := List.cons.inj h
        subst h1
        simpa using hpa

theorem mem_of_dropWhile {p : Char → Bool} {l : List Char} {x : Char}
    (h : x ∈ l.dropWhile p) : x ∈ l :=
  (List.dropWhile_sublist p).subset h

theorem mem_of_takeWhile {p : Char → Bool} {l : List Char} {x : Char}
    (h : x ∈ l.takeWhile p) : x ∈ l := by
  have := List.takeWhile_append_dropWhile p l
  rw [← this]
  exact List.mem_append_left _ h

theorem dropWhile_append_of_all {p : Char → Bool} {pre : List Char} (z : List Char)
    (h : ∀ c ∈ pre, p c = true) :
    (pre ++ z).dropWhile p = z.dropWhile p := by
  induction pre with
  | nil => rfl
  | cons a pre ih =>
      rw [List.cons_append, List.dropWhile_cons, if_pos (h a (by simp))]
      exact ih (fun c hc => h c (by simp [hc]))

theorem dropWhile_append_of_ne_nil {p : Char → Bool} {z : List Char} (suf : List Char)
    (h : z.dropWhile p ≠ []) :
    (z ++ suf).dropWhile p = z.dropWhile p ++ suf := by
  induction z with
  | nil => simp at h
  | cons a z ih =>
      by_cases hpa : p a = true
      · rw [List.dropWhile_cons, if_pos hpa] at h
        rw [List.cons_append, List.dropWhile_cons, if_pos hpa, List.dropWhile_cons,
          if_pos hpa]
        exact ih h
      · rw [List.cons_append, List.dropWhile_cons, if_neg hpa, List.dropWhile_cons,
          if_neg hpa, List.cons_append]

theorem takeWhile_append_of_all {p : Char → Bool} {pre : List Char} (z : List Char)
    (h : ∀ c ∈ pre, p c = true) :
    (pre ++ z).takeWhile p = pre ++ z.takeWhile p := by
  induction pre with
  | nil => rfl
  | cons a pre ih =>
      rw [List.cons_append, List.takeWhile_cons, if_pos (h a (by simp)),
        ih (fun c hc => h c (by simp [hc])), List.cons_append]

theorem dropWhile_congr {p q : Char → Bool} :
    ∀ {l : List Char}, (∀ c ∈ l, p c = q c) → l.dropWhile p = l.dropWhile q := by
  intro l
  induction l with
  | nil => intro _; rfl
  | cons a l ih =>
      intro h
      rw [List.dropWhile_cons, List.dropWhile_cons, h a (by simp)]
      by_cases hq : q a = true
      · rw [if_pos hq, if_pos hq]
        exact ih (fun c hc => h c (by simp [hc]))
      · rw [if_neg hq, if_neg hq]

theorem takeWhile_congr {p q : Char → Bool} :
    ∀ {l : List Char}, (∀ c ∈ l, p c = q c) → l.takeWhile p = l.takeWhile q := by
  intro l
  induction l with
  | nil => intro _; rfl
  | cons a l ih =>
      intro h
      rw [List.takeWhile_cons, List.takeWhile_cons, h a (by simp)]
      by_cases hq : q a = true
      · rw [if_pos hq, if_pos hq, ih (fun c hc => h c (by simp [hc]))]
      · rw [if_neg hq, if_neg hq]

theorem dropWhile_idem {p : Char → Bool} (l : List Char) :
    (l.dropWhile p).dropWhile p = l.dropWhile p := by
  cases hd : l.dropWhile p with
  | nil => rfl
  | cons c cs =>
      rw [List.dropWhile_cons, if_neg (by simp [dropWhile_head_false hd])]

theorem dropWhile_eq_trimBy_append (p : Char → Bool) (l : List Char) :
    l.dropWhile p = trimBy p l ++ ((l.dropWhile p).reverse.takeWhile p).reverse := by
  unfold trimBy
  conv_lhs =>
    rw [← List.reverse_reverse (l.dropWhile p),
      ← List.takeWhile_append_dropWhile p (l.dropWhile p).reverse]
  rw [List.reverse_append]

theorem trimBy_head_false {p : Char → Bool} {l : List Char} {c : Char} {cs : List Char}
    (h : trimBy p l = c :: cs) : p c = false := by
  have hm := dropWhile_eq_trimBy_append p l
  rw [h, List.cons_append] at hm
  exact dropWhile_head_false hm

theorem trimBy_reverse_eq (p : Char → Bool) (l : List Char) :
    (trimBy p l).reverse = (l.dropWhile p).reverse.dropWhile p := by
  unfold trimBy
  rw [List.reverse_reverse]

theorem trimBy_last_false {p : Char → Bool} {l : List Char} {c : Char} {cs : List Char}
    (h : (trimBy p l).reverse = c :: cs) : p c = false := by
  rw [trimBy_reverse_eq] at h
  exact dropWhile_head_false h

theorem trimBy_eq_nil_all {p : Char → Bool} {l : List Char} (h : trimBy p l = []) :
    ∀ c ∈ l, p c = true := by
  intro c hc
  have h2 : (l.dropWhile p).reverse.dropWhile p = [] := by
    have := congrArg List.reverse h
    rw [trimBy_reverse_eq] at this
    simpa using this
  have h4 : ∀ x ∈ l.dropWhile p, p x = true := fun x hx =>
    List.dropWhile_eq_nil_iff.mp h2 x (List.mem_reverse.mpr hx)
  have hmem : c ∈ l.takeWhile p ++ l.dropWhile p := by
    rw [List.takeWhile_append_dropWhile]
    exact hc
  rcases List.mem_append.mp hmem with h5 | h5
  · exact List.mem_takeWhile_imp h5
  · exact h4 c h5

theorem mem_trimBy {p : Char → Bool} {l : List Char} {c : Char}
    (h : c ∈ trimBy p l) : c ∈ l := by
  unfold trimBy at h
  exact mem_of_dropWhile (List.mem_reverse.mp (mem_of_dropWhile (List.mem_reverse.mp h)))

theorem trimBy_decomp (p : Char → Bool) (l : List Char) :
    ∃ pre suf, l = pre ++ trimBy p l ++ suf ∧ (∀ c ∈ pre, p c = true) ∧
      (∀ c ∈ suf, p c = true) := by
  refine ⟨l.takeWhile p, ((l.dropWhile p).reverse.takeWhile p).reverse, ?_, ?_, ?_⟩
  · conv_lhs => rw [← List.takeWhile_append_dropWhile p l, dropWhile_eq_trimBy_append p l]
    rw [List.append_assoc]
  · exact fun c hc => List.mem_takeWhile_imp hc
  · exact fun c hc => List.mem_takeWhile_imp (List.mem_reverse.mp hc)

theorem trimBy_append_left {p : Char → Bool} {pre : List Char} (l : List Char)
    (h : ∀ c ∈ pre, p c = true) :
    trimBy p (pre ++ l) = trimBy p l := by
  unfold trimBy
  rw [dropWhile_append_of_all l h]

theorem trimBy_append_right {p : Char → Bool} {suf : List Char} (l : List Char)
    (h : ∀ c ∈ suf, p c = true) :
    trimBy p (l ++ suf) = trimBy p l := by
  unfold trimBy
  by_cases hz : l.dropWhile p = []
  · have hall : ∀ c ∈ l, p c = true := List.dropWhile_eq_nil_iff.mp hz
    rw [dropWhile_append_of_all suf hall, List.dropWhile_eq_nil_iff.mpr h, hz]
  · rw [dropWhile_append_of_ne_nil suf hz, List.reverse_append,
      dropWhile_append_of_all _ (fun c hc => h c (List.mem_reverse.mp hc))]

theorem trimBy_of_trimBy {p q : Char → Bool} (hpq : ∀ c, p c = true → q c = true)
    (l : List Char) :
    trimBy q (trimBy p l) = trimBy q l := by
  obtain ⟨pre, suf, hdec, hpre, hsuf⟩ := trimBy_decomp p l
  conv_rhs => rw [hdec]
  rw [List.append_assoc, trimBy_append_left _ (fun c hc => hpq c (hpre c hc)),
    trimBy_append_right _ (fun c hc => hpq c (hsuf c hc))]

theorem trimBy_congr {p q : Char → Bool} {l : List Char}
    (h : ∀ c ∈ l, p c = q c) : trimBy p l = trimBy q l := by
  unfold trimBy
  rw [dropWhile_congr h,
    dropWhile_congr (fun c hc => h c (mem_of_dropWhile (List.mem_reverse.mp hc)))]

theorem trimBy_dropWhile (p : Char → Bool) (l : List Char) :
    trimBy p (l.dropWhile p) = trimBy p l := by
  unfold trimBy
  rw [dropWhile_idem]

theorem startsWithChars_one {a : Char} {l : List Char}
    (h : startsWithChars [a] l = true) : ∃ rest, l = a :: rest := by
  match l with
  | [] => simp [startsWithChars] at h
  | c :: rest =>
      simp only [startsWithChars, Bool.and_eq_true, beq_iff_eq] at h
      exact ⟨rest, by rw [h.1]⟩

theorem startsWithChars_two {a b : Char} {l : List Char}
    (h : startsWithChars [a, b] l = true) : ∃ rest, l = a :: b :: rest := by
  match l with
  | [] => simp [startsWithChars] at h
  | [c] => simp [startsWithChars] at h
  | c :: d :: rest =>
      simp only [startsWithChars, Bool.and_eq_true, beq_iff_eq] at h
      exact ⟨rest, by rw [h.1, h.2.1]⟩

theorem ascii_subset_unicode {c : Char} (h : isAsciiSpaceGo c = true) :
    isGoUnicodeSpace c = true := by
  simp only [isAsciiSpaceGo, decide_eq_true_eq] at h
  simp only [isGoUnicodeSpace, decide_eq_true_eq]
  omega

theorem regex_subset_unicode {c : Char} (h : isRegexSpace c = true) :
    isGoUnicodeSpace c = true := by
  simp only [isRegexSpace, decide_eq_true_eq] at h
  simp only [isGoUnicodeSpace, decide_eq_true_eq]
  omega

theorem unicode_nonascii_facts {c : Char} (hu : isGoUnicodeSpace c = true)
    (ha : isAsciiSpaceGo c = false) :
    isDigitChar c = false ∧ (c == '+') = false ∧ (c == '-') = false ∧
      (c == ' ') = false := by
  refine ⟨?_, ?_, ?_, ?_⟩
  · simp only [isGoUnicodeSpace, decide_eq_true_eq] at hu
    simp only [isDigitChar, decide_eq_false_iff_not]
    omega
  · rw [beq_eq_false_iff_ne]
    intro he; subst he
    exact absurd hu (by decide)
  · rw [beq_eq_false_iff_ne]
    intro he; subst he
    exact absurd hu (by decide)
  · rw [beq_eq_false_iff_ne]
    intro he; subst he
    exact absurd ha (by decide)

theorem goAtoi_head_not_numlike {c0 : Char} {rest : List Char}
    (hd : isDigitChar c0 = false) (hplus : (c0 == '+') = false)
    (hminus : (c0 == '-') = false) :
    goAtoi (c0 :: rest) = none := by
  simp [goAtoi, hplus, hminus, hd]

theorem ingester_skip_of_blank_or_comment (raw : List Char)
    (h : goTrimSpace raw = [] ∨ startsWithChars ['#'] (goTrimSpace raw) = true ∨
      startsWithChars ['/', '/'] (goTrimSpace raw) = true) :
    ingesterParseLine raw = none := by
  have hcond : ((goTrimSpace raw).isEmpty ||
      startsWithChars ['/', '/'] (goTrimSpace raw) ||
      startsWithChars ['#'] (goTrimSpace raw)) = true := by
    rcases h with h | h | h <;> simp [h]
  simp only [ingesterParseLine, hcond, if_true]

theorem deckIngester_skip_of_blank_or_comment (raw : List Char)
    (h : goTrimSpace raw = [] ∨ startsWithChars ['#'] (goTrimSpace raw) = true ∨
      startsWithChars ['/', '/'] (goTrimSpace raw) = true) :
    deckIngesterParseLine raw = none := by
  by_cases h1 : ((asciiTrim raw).isEmpty ||
      startsWithChars ['/', '/'] (asciiTrim raw) ||
      startsWithChars ['#'] (asciiTrim raw)) = true
  · simp only [deckIngesterParseLine, h1, if_true]
  have h1' := h1
  simp only [Bool.or_eq_true, not_or, Bool.not_eq_true] at h1'
  obtain ⟨⟨h1e, h1s⟩, h1h⟩ := h1'
  cases ht : asciiTrim raw with
  | nil => rw [ht] at h1e; simp at h1e
  | cons c0 t' =>
    have ht' : trimBy isAsciiSpaceGo raw = c0 :: t' := ht
    have hc0_ascii : isAsciiSpaceGo c0 = false := trimBy_head_false ht'
    have hc0_unicode : isGoUnicodeSpace c0 = true := by
      obtain ⟨pre2, suf2, hdec, hpre2, hsuf2⟩ :=
        trimBy_decomp isGoUnicodeSpace (asciiTrim raw)
      have hmid : trimBy isGoUnicodeSpace (asciiTrim raw) = goTrimSpace raw :=
        trimBy_of_trimBy (fun c hc => ascii_subset_unicode hc) raw
      rw [hmid] at hdec
      rcases h with hblank | hcomment | hslash
      · have hall : ∀ c ∈ raw, isGoUnicodeSpace c = true :=
          trimBy_eq_nil_all (p := isGoUnicodeSpace) hblank
        refine hall c0 (mem_trimBy (p := isAsciiSpaceGo) ?_)
        rw [ht']
        exact List.mem_cons_self c0 t'
      · obtain ⟨restU, hU⟩ := startsWithChars_one hcomment
        rw [hU] at hdec
        cases pre2 with
        | nil =>
            rw [List.nil_append, ht, List.cons_append] at hdec
            obtain ⟨hc, -⟩ := List.cons.inj hdec
            rw [ht, hc] at h1h
            simp [startsWithChars] at h1h
        | cons p0 pre2' =>
            rw [ht, List.cons_append, List.cons_append] at hdec
            obtain ⟨hc, -⟩ := List.cons.inj hdec
            rw [hc]
            exact hpre2 p0 (List.mem_cons_self p0 pre2')
      · obtain ⟨restU, hU⟩ := startsWithChars_two hslash
        rw [hU] at hdec
        cases pre2 with
        | nil =>
            rw [List.nil_append, ht, List.cons_append, List.cons_append] at hdec
            obtain ⟨hc, hrest⟩ := List.cons.inj hdec
            rw [ht, hc] at h1s
            rw [hrest] at h1s
            simp [startsWithChars] at h1s
        | cons p0 pre2' =>
            rw [ht, List.cons_append, List.cons_append] at hdec
            obtain ⟨hc, -⟩ := List.cons.inj hdec
            rw [hc]
            exact hpre2 p0 (List.mem_cons_self p0 pre2')
    obtain ⟨hdig, hplus, hminus, hspace⟩ := unicode_nonascii_facts hc0_unicode hc0_ascii
    have hatoi : goAtoi ((asciiTrim raw).takeWhile (fun c => !(c == ' '))) = none := by
      rw [ht, List.takeWhile_cons, if_pos (by simp [hspace])]
      exact goAtoi_head_not_numlike hdig hplus hminus
    simp only [deckIngesterParseLine]
    rw [if_neg h1]
    by_cases h2 : (asciiTrim raw).contains ' ' = true
    · rw [if_pos h2, hatoi]
    · rw [if_neg h2]

/-- C7 (confirmed): a file line that is blank after trimming, or whose
trimmed form begins with `#` or `//`, is skipped by both readers: it parses
to no card entry and contributes nothing to the parsed card list of any
file it appears in (hence nothing to `total_cards` or `unique_cards`,
which are computed from that list). -/
theorem c7_skip_blank_and_comment (raw : List Char)
    (h : goTrimSpace raw = [] ∨ startsWithChars ['#'] (goTrimSpace raw) = true ∨
      startsWithChars ['/', '/'] (goTrimSpace raw) = true) :
    ingesterParseLine raw = none ∧ deckIngesterParseLine raw = none ∧
    (∀ pre post : List (List Char),
      (pre ++ raw :: post).filterMap ingesterParseLine =
        (pre ++ post).filterMap ingesterParseLine) ∧
    (∀ pre post : List (List Char),
      (pre ++ raw :: post).filterMap deckIngesterParseLine =
        (pre ++ post).filterMap deckIngesterParseLine) := by
  have h5 := ingester_skip_of_blank_or_comment raw h
  have h4 := deckIngester_skip_of_blank_or_comment raw h
  exact ⟨h5, h4, fun pre post => filterMap_skip _ _ h5 pre post,
    fun pre post => filterMap_skip _ _ h4 pre post⟩

/-- C7 witness: the comment line `   # lands section` is skipped by both
readers. -/
theorem c7_witness :
    ingesterParseLine ("   # lands section".toList) = none ∧
    deckIngesterParseLine ("   # lands section".toList) = none :=
  ⟨(c7_skip_blank_and_comment ("   # lands section".toList) (by decide)).1,
   (c7_skip_blank_and_comment ("   # lands section".toList) (by decide)).2.1⟩

/-- A line the hand-rolled `ingestDeckFile` reader rejects as malformed:
non-blank and non-comment after its trim, but with no space to split at,
an unparsable first token, a non-positive quantity, or an empty trimmed
name. -/
def deckLineMalformed (raw : List Char) : Bool :=
  let line := asciiTrim raw
  !line.isEmpty && !(startsWithChars ['/', '/'] line) && !(startsWithChars ['#'] line) &&
    (!(line.contains ' ') ||
      (match goAtoi (line.takeWhile (fun c => !(c == ' '))) with
       | none => true
       | some q => decide (q ≤ 0) ||
           (asciiTrim ((line.dropWhile (fun c => !(c == ' '))).tail)).isEmpty))

/-- A line the regex-based `Ingester.IngestFile` reader rejects as
malformed: non-blank and non-comment after its trim, but failing the
`^(\d+)\s+(.+)$` match or overflowing `strconv.Atoi`. -/
def ingesterLineMalformed (raw : List Char) : Bool :=
  let line := goTrimSpace raw
  !line.isEmpty && !(startsWithChars ['/', '/'] line) && !(startsWithChars ['#'] line) &&
    ((line.takeWhile isDigitChar).isEmpty ||
      ((line.dropWhile isDigitChar).takeWhile isRegexSpace).isEmpty ||
      ((line.dropWhile isDigitChar).dropWhile isRegexSpace).isEmpty ||
      (goAtoi (line.takeWhile isDigitChar)).isNone)

theorem deckIngester_skip_of_malformed (raw : List Char)
    (h : deckLineMalformed raw = true) :
    deckIngesterParseLine raw = none := by
  simp only [deckLineMalformed, Bool.and_eq_true, Bool.not_eq_true'] at h
  obtain ⟨⟨⟨he, hs⟩, hh⟩, hrest⟩ := h
  simp only [deckIngesterParseLine]
  rw [if_neg (by simp [he, hs, hh])]
  by_cases h2 : (asciiTrim raw).contains ' ' = true
  · rw [if_pos h2]
    rw [h2] at hrest
    simp only [Bool.not_true, Bool.false_or] at hrest
    cases hatoi : goAtoi ((asciiTrim raw).takeWhile (fun c => !(c == ' '))) with
    | none => rfl
    | some q =>
        rw [hatoi] at hrest
        rw [Bool.or_eq_true] at hrest
        rcases hrest with hq | hn
        · simp only [decide_eq_true_eq] at hq
          simp [show ¬(0 < q) from by omega]
        · by_cases hq0 : 0 < q
          · simp [hq0, hn]
          · simp [hq0]
  · rw [if_neg h2]

theorem ingester_skip_of_malformed (raw : List Char)
    (h : ingesterLineMalformed raw = true) :
    ingesterParseLine raw = none := by
  simp only [ingesterLineMalformed, Bool.and_eq_true, Bool.not_eq_true'] at h
  obtain ⟨⟨⟨he, hs⟩, hh⟩, hrest⟩ := h
  simp only [ingesterParseLine]
  rw [if_neg (by simp [he, hs, hh])]
  rw [Bool.or_eq_true, Bool.or_eq_true, Bool.or_eq_true] at hrest
  rcases hrest with h4 | h4
  · rcases h4 with h5 | h5
    · rcases h5 with h6 | h6
      · rw [if_pos (by simp [h6])]
      · rw [if_pos (by simp [h6])]
    · rw [if_pos (by simp [h5])]
  · by_cases hskip : ((goTrimSpace raw).takeWhile isDigitChar).isEmpty = true ∨
        (((goTrimSpace raw).dropWhile isDigitChar).takeWhile isRegexSpace).isEmpty = true ∨
        (((goTrimSpace raw).dropWhile isDigitChar).dropWhile isRegexSpace).isEmpty = true
    · rw [if_pos (by rcases hskip with h6 | h6 | h6 <;> simp [h6])]
    · push_neg at hskip
      obtain ⟨h6, h7, h8⟩ := hskip
      rw [if_neg (by
        intro hcontra
        rw [Bool.or_eq_true, Bool.or_eq_true] at hcontra
        rcases hcontra with (h9 | h9) | h9
        exacts [h6 h9, h7 h9, h8 h9])]
      rw [Option.isNone_iff_eq_none] at h4
      rw [h4]

/-- C8 counterexample: the line `0 Island` has a quantity token that is
not a positive integer, yet the regex-based `Ingester.IngestFile` does not
reject it: the line is accepted and appended as a card entry with
quantity 0 (the regex `^(\d+)\s+(.+)$` matches and no positivity check is
made). -/
theorem c8_counterexample :
    ingesterParseLine ("0 Island".toList) = some (0, "Island".toList) ∧
    ¬((0 : Int) > 0) :=
  ⟨by decide, by decide⟩

/-- C8 (corrected): malformed non-blank, non-comment lines are skipped
locally — the rest of the file is still processed — by both readers, with
one divergence from the claim: the hand-rolled `ingestDeckFile` rejects a
missing/unparsable quantity token, a non-positive quantity and an empty
name, but the regex-based `Ingester.IngestFile` only rejects lines failing
its regex or overflowing `Atoi`, and accepts quantity-0 lines. -/
theorem c8_amended_thm (raw : List Char) :
    (deckLineMalformed raw = true →
      deckIngesterParseLine raw = none ∧
      ∀ pre post : List (List Char),
        (pre ++ raw :: post).filterMap deckIngesterParseLine =
          (pre ++ post).filterMap deckIngesterParseLine) ∧
    (ingesterLineMalformed raw = true →
      ingesterParseLine raw = none ∧
      ∀ pre post : List (List Char),
        (pre ++ raw :: post).filterMap ingesterParseLine =
          (pre ++ post).filterMap ingesterParseLine) := by
  constructor
  · intro h
    have h4 := deckIngester_skip_of_malformed raw h
    exact ⟨h4, fun pre post => filterMap_skip _ _ h4 pre post⟩
  · intro h
    have h5 := ingester_skip_of_malformed raw h
    exact ⟨h5, fun pre post => filterMap_skip _ _ h5 pre post⟩

/-- C8 witness: the malformed line `4x Bolt` is skipped by both readers. -/
theorem c8_witness :
    deckIngesterParseLine ("4x Bolt".toList) = none ∧
    ingesterParseLine ("4x Bolt".toList) = none :=
  ⟨((c8_amended_thm ("4x Bolt".toList)).1 (by decide)).1,
   ((c8_amended_thm ("4x Bolt".toList)).2 (by decide)).1⟩

theorem wrap64_add_left (x y : Int) : wrap64 (wrap64 x + y) = wrap64 (x + y) := by
  unfold wrap64
  omega

theorem sumQuantities64_eq (cards : List (Int × List Char)) :
    sumQuantities64 cards = wrap64 ((cards.map Prod.fst).sum) := by
  have key : ∀ (l : List (Int × List Char)) (a : Int),
      l.foldl (fun acc c => wrap64 (acc + c.1)) (wrap64 a) =
        wrap64 (a + (l.map Prod.fst).sum) := by
    intro l
    induction l with
    | nil => intro a; simp
    | cons c l ih =>
        intro a
        rw [List.foldl_cons, wrap64_add_left, ih (a + c.1)]
        simp only [List.map_cons, List.sum_cons]
        rw [add_assoc]
  have h0 : (0 : Int) = wrap64 0 := by unfold wrap64; decide
  unfold sumQuantities64
  conv_lhs => rw [h0]
  rw [key cards 0, zero_add]

theorem goAtoi_digits_nonneg {s : List Char} (hall : ∀ c ∈ s, isDigitChar c = true)
    {q : Int} (h : goAtoi s = some q) : 0 ≤ q ∧ q ≤ 2 ^ 63 - 1 := by
  cases s with
  | nil => simp [goAtoi] at h
  | cons c rest =>
      have hc : isDigitChar c = true := hall c (List.mem_cons_self c rest)
      have hminus : (c == '-') = false := by
        rw [beq_eq_false_iff_ne]; intro he; subst he; exact absurd hc (by decide)
      have hplus : (c == '+') = false := by
        rw [beq_eq_false_iff_ne]; intro he; subst he; exact absurd hc (by decide)
      have hallb : (c :: rest).all isDigitChar = true := List.all_eq_true.mpr hall
      have hcond : (c == '-' || c == '+') = false := by rw [hminus, hplus]; rfl
      have hplus' : c ≠ '+' := beq_eq_false_iff_ne.mp hplus
      have hminus' : c ≠ '-' := beq_eq_false_iff_ne.mp hminus
      have hgo : goAtoi (c :: rest) =
          (if digitsToNat (c :: rest) ≤ 2 ^ 63 - 1
            then some ((digitsToNat (c :: rest) : Int)) else none) := by
        simp [goAtoi, hcond, hallb, hminus, hplus, hminus', hplus', hall]
      rw [hgo] at h
      by_cases hb : digitsToNat (c :: rest) ≤ 2 ^ 63 - 1
      · rw [if_pos hb] at h
        obtain rfl := Option.some.inj h
        exact ⟨Int.natCast_nonneg _, by omega⟩
      · rw [if_neg hb] at h; cases h

theorem ingesterParseLine_bounds {raw : List Char} {qn : Int × List Char}
    (h : ingesterParseLine raw = some qn) : 0 ≤ qn.1 ∧ qn.1 ≤ 2 ^ 63 - 1 := by
  simp only [ingesterParseLine] at h
  by_cases h1 : ((goTrimSpace raw).isEmpty ||
      startsWithChars ['/', '/'] (goTrimSpace raw) ||
      startsWithChars ['#'] (goTrimSpace raw)) = true
  · rw [if_pos h1] at h; cases h
  rw [if_neg h1] at h
  by_cases h2 : (((goTrimSpace raw).takeWhile isDigitChar).isEmpty ||
      (((goTrimSpace raw).dropWhile isDigitChar).takeWhile isRegexSpace).isEmpty ||
      (((goTrimSpace raw).dropWhile isDigitChar).dropWhile isRegexSpace).isEmpty) = true
  · rw [if_pos h2] at h; cases h
  rw [if_neg h2] at h
  cases hatoi : goAtoi ((goTrimSpace raw).takeWhile isDigitChar) with
  | none => rw [hatoi] at h; cases h
  | some q =>
      rw [hatoi] at h
      simp only [Option.some.injEq] at h
      have hall : ∀ c ∈ (goTrimSpace raw).takeWhile isDigitChar, isDigitChar c = true :=
        fun c hc => List.mem_takeWhile_imp hc
      have := goAtoi_digits_nonneg hall hatoi
      rw [← h]
      exact this

theorem deckIngesterParseLine_pos {raw : List Char} {qn : Int × List Char}
    (h : deckIngesterParseLine raw = some qn) : 0 < qn.1 := by
  simp only [deckIngesterParseLine] at h
  by_cases h1 : ((asciiTrim raw).isEmpty ||
      startsWithChars ['/', '/'] (asciiTrim raw) ||
      startsWithChars ['#'] (asciiTrim raw)) = true
  · rw [if_pos h1] at h; cases h
  rw [if_neg h1] at h
  by_cases h2 : (asciiTrim raw).contains ' ' = true
  · rw [if_pos h2] at h
    split at h
    next q heq =>
      split at h
      next hq0 =>
        split at h
        next => cases h
        next =>
          obtain rfl := Option.some.inj h
          exact hq0
      next hq0 => cases h
    next heq => cases h
  · rw [if_neg h2] at h; cases h

theorem ingestFileCards_nonneg (content : List Char) :
    ∀ qn ∈ ingestFileCards content, 0 ≤ qn.1 := by
  intro qn hqn
  unfold ingestFileCards at hqn
  obtain ⟨raw, -, hparse⟩ := List.mem_filterMap.mp hqn
  exact (ingesterParseLine_bounds hparse).1

theorem ingestDeckFileCards_nonneg (content : List Char) :
    ∀ qn ∈ ingestDeckFileCards content, 0 ≤ qn.1 := by
  intro qn hqn
  unfold ingestDeckFileCards at hqn
  obtain ⟨raw, -, hparse⟩ := List.mem_filterMap.mp hqn
  exact le_of_lt (deckIngesterParseLine_pos hparse)

/-- C9 counterexample: on a file of two maximal-quantity lines, the
`totalCards += quantity` accumulation wraps around 64-bit `int`:
`TotalCards` is `-2`, while the mathematical sum of the stored entry
quantities is `2^64 - 2`. -/
theorem c9_counterexample :
    (ingesterDeckOf ("9223372036854775807 A\n9223372036854775807 B".toList)).totalCards =
      -2 ∧
    (((ingesterDeckOf
        ("9223372036854775807 A\n9223372036854775807 B".toList)).cards.map
          Prod.fst).sum = 2 ^ 64 - 2) ∧
    ((-2 : Int) ≠ 2 ^ 64 - 2) := by
  refine ⟨by decide, by decide, by decide⟩

/-- C9 (corrected): for both readers, `UniqueCards` equals the length of
the card list (one entry per accepted input line), and `TotalCards` equals
the 64-bit wrap-around of the sum of the entry quantities — hence the
exact sum whenever that sum is below `2^63`, but not in general. -/
theorem c9_amended_thm (content : List Char) :
    ((ingesterDeckOf content).totalCards =
        wrap64 (((ingesterDeckOf content).cards.map Prod.fst).sum) ∧
      (ingesterDeckOf content).uniqueCards = (ingesterDeckOf content).cards.length ∧
      ((((ingesterDeckOf content).cards.map Prod.fst).sum < 2 ^ 63 →
        (ingesterDeckOf content).totalCards =
          ((ingesterDeckOf content).cards.map Prod.fst).sum))) ∧
    ((deckIngesterDeckOf content).totalCards =
        wrap64 (((deckIngesterDeckOf content).cards.map Prod.fst).sum) ∧
      (deckIngesterDeckOf content).uniqueCards =
        (deckIngesterDeckOf content).cards.length ∧
      ((((deckIngesterDeckOf content).cards.map Prod.fst).sum < 2 ^ 63 →
        (deckIngesterDeckOf content).totalCards =
          ((deckIngesterDeckOf content).cards.map Prod.fst).sum))) := by
  constructor
  · refine ⟨sumQuantities64_eq _, rfl, ?_⟩
    intro hlt
    have hnn : 0 ≤ ((ingesterDeckOf content).cards.map Prod.fst).sum :=
      List.sum_nonneg (by
        intro x hx
        obtain ⟨qn, hqn, rfl⟩ := List.mem_map.mp hx
        exact ingestFileCards_nonneg content qn hqn)
    have := sumQuantities64_eq (ingesterDeckOf content).cards
    show sumQuantities64 (ingestFileCards content) = _
    rw [sumQuantities64_eq]
    unfold wrap64
    have h2 : ((ingesterDeckOf content).cards.map Prod.fst).sum =
        ((ingestFileCards content).map Prod.fst).sum := rfl
    rw [← h2]
    omega
  · refine ⟨sumQuantities64_eq _, rfl, ?_⟩
    intro hlt
    have hnn : 0 ≤ ((deckIngesterDeckOf content).cards.map Prod.fst).sum :=
      List.sum_nonneg (by
        intro x hx
        obtain ⟨qn, hqn, rfl⟩ := List.mem_map.mp hx
        exact ingestDeckFileCards_nonneg content qn hqn)
    show sumQuantities64 (ingestDeckFileCards content) = _
    rw [sumQuantities64_eq]
    unfold wrap64
    have h2 : ((deckIngesterDeckOf content).cards.map Prod.fst).sum =
        ((ingestDeckFileCards content).map Prod.fst).sum := rfl
    rw [← h2]
    omega

/-- C9 witness: on the small file `4 Bolt\n1 Lotus` the totals equal the
exact sums for both readers. -/
theorem c9_witness :
    (ingesterDeckOf ("4 Bolt\n1 Lotus".toList)).totalCards =
      ((ingesterDeckOf ("4 Bolt\n1 Lotus".toList)).cards.map Prod.fst).sum ∧
    (deckIngesterDeckOf ("4 Bolt\n1 Lotus".toList)).totalCards =
      ((deckIngesterDeckOf ("4 Bolt\n1 Lotus".toList)).cards.map Prod.fst).sum :=
  ⟨(c9_amended_thm ("4 Bolt\n1 Lotus".toList)).1.2.2 (by decide),
   (c9_amended_thm ("4 Bolt\n1 Lotus".toList)).2.2.2 (by decide)⟩

/-- A character the two readers treat identically as whitespace: the plain
space, or a character that no whitespace class of either reader contains. -/
def plainChar (c : Char) : Bool := c == ' ' || !(isGoUnicodeSpace c)

/-- Trimming plain spaces from both ends: the common behaviour of both
readers' trims on plain lines. -/
def spaceTrim (l : List Char) : List Char := trimBy (fun c => c == ' ') l

/-- The quantity-token shapes on which the two readers are known to
disagree, ruled out line by line: an all-digit token of value 0 (accepted
by the regex reader, rejected by the hand-rolled one) and a `+`-signed
in-range positive token (accepted by the hand-rolled reader, rejected by
the regex). -/
def lineTokenOk (t : List Char) : Bool :=
  !(t.contains ' ') ||
  (!(decide ((t.takeWhile (fun c => !(c == ' '))) ≠ []) &&
      (t.takeWhile (fun c => !(c == ' '))).all isDigitChar &&
      decide (digitsToNat (t.takeWhile (fun c => !(c == ' '))) = 0)) &&
   !(match t.takeWhile (fun c => !(c == ' ')) with
     | '+' :: ds => decide (ds ≠ []) && ds.all isDigitChar &&
         decide (1 ≤ digitsToNat ds ∧ digitsToNat ds ≤ 2 ^ 63 - 1)
     | _ => false))

/-- A line on which the two readers provably agree: plain characters only,
and a first token avoiding the two divergent shapes. -/
def lineOk (raw : List Char) : Bool := raw.all plainChar && lineTokenOk (spaceTrim raw)

/-- A file all of whose lines are agreement lines. -/
def fileOk (content : List Char) : Bool := (splitOnNl content).all lineOk

theorem goAtoi_plus (ds : List Char) :
    goAtoi ('+' :: ds) =
      (if ds = [] then none
       else if ds.all isDigitChar then
         (if digitsToNat ds ≤ 2 ^ 63 - 1 then some ((digitsToNat ds : Int)) else none)
       else none) := rfl

theorem goAtoi_minus (ds : List Char) :
    goAtoi ('-' :: ds) =
      (if ds = [] then none
       else if ds.all isDigitChar then
         (if digitsToNat ds ≤ 2 ^ 63 then some (-(digitsToNat ds : Int)) else none)
       else none) := rfl

theorem goAtoi_all_digits_cases {w : List Char} (hne : w ≠ [])
    (hall : ∀ c ∈ w, isDigitChar c = true) :
    goAtoi w = (if digitsToNat w ≤ 2 ^ 63 - 1
      then some ((digitsToNat w : Int)) else none) := by
  cases w with
  | nil => exact absurd rfl hne
  | cons c rest =>
      have hc : isDigitChar c = true := hall c (List.mem_cons_self c rest)
      have hminus : (c == '-') = false := by
        rw [beq_eq_false_iff_ne]; intro he; subst he; exact absurd hc (by decide)
      have hplus : (c == '+') = false := by
        rw [beq_eq_false_iff_ne]; intro he; subst he; exact absurd hc (by decide)
      have hallb : (c :: rest).all isDigitChar = true := List.all_eq_true.mpr hall
      have hcond : (c == '-' || c == '+') = false := by rw [hminus, hplus]; rfl
      have hplus' : c ≠ '+' := beq_eq_false_iff_ne.mp hplus
      have hminus' : c ≠ '-' := beq_eq_false_iff_ne.mp hminus
      simp [goAtoi, hcond, hallb, hminus, hplus, hminus', hplus', hall]

theorem goAtoi_not_all_digits {c : Char} {rest : List Char}
    (hminus : (c == '-') = false) (hplus : (c == '+') = false)
    (hnall : (c :: rest).all isDigitChar = false) :
    goAtoi (c :: rest) = none := by
  have hcond : (c == '-' || c == '+') = false := by rw [hminus, hplus]; rfl
  have hplus' : c ≠ '+' := beq_eq_false_iff_ne.mp hplus
  have hminus' : c ≠ '-' := beq_eq_false_iff_ne.mp hminus
  simp only [goAtoi, hcond, hplus', hminus', if_neg, Bool.false_eq_true, reduceIte]
  rw [if_neg (by simp), if_neg (by simp [hnall])]

theorem plainChar_space_eq {c : Char} (h : plainChar c = true) :
    isAsciiSpaceGo c = (c == ' ') ∧ isGoUnicodeSpace c = (c == ' ') ∧
      isRegexSpace c = (c == ' ') := by
  simp only [plainChar, Bool.or_eq_true, Bool.not_eq_true'] at h
  rcases h with h | h
  · have hce : c = ' ' := beq_iff_eq.mp h
    subst hce
    exact ⟨by decide, by decide, by decide⟩
  · have hsp : (c == ' ') = false := by
      rw [beq_eq_false_iff_ne]
      intro he; subst he
      exact absurd h (by decide)
    have ha : isAsciiSpaceGo c = false := by
      cases hx : isAsciiSpaceGo c
      · rfl
      · rw [ascii_subset_unicode hx] at h; cases h
    have hr : isRegexSpace c = false := by
      cases hx : isRegexSpace c
      · rfl
      · rw [regex_subset_unicode hx] at h; cases h
    exact ⟨by rw [ha, hsp], by rw [h, hsp], by rw [hr, hsp]⟩

theorem parseLine_agree (raw : List Char) (h : lineOk raw = true) :
    ingesterParseLine raw = deckIngesterParseLine raw := by
  rw [lineOk, Bool.and_eq_true] at h
  obtain ⟨hplain, htok⟩ := h
  have hplainm : ∀ c ∈ raw, plainChar c = true := List.all_eq_true.mp hplain
  have hgt : goTrimSpace raw = spaceTrim raw :=
    trimBy_congr (fun c hc => (plainChar_space_eq (hplainm c hc)).2.1)
  have hat : asciiTrim raw = spaceTrim raw :=
    trimBy_congr (fun c hc => (plainChar_space_eq (hplainm c hc)).1)
  simp only [ingesterParseLine, deckIngesterParseLine, hgt, hat]
  by_cases hskip : ((spaceTrim raw).isEmpty ||
      startsWithChars ['/', '/'] (spaceTrim raw) ||
      startsWithChars ['#'] (spaceTrim raw)) = true
  · rw [if_pos hskip, if_pos hskip]
  rw [if_neg hskip, if_neg hskip]
  have htne : spaceTrim raw ≠ [] := by
    intro he
    exact hskip (by rw [he]; decide)
  have htmem : ∀ c ∈ spaceTrim raw, plainChar c = true :=
    fun c hc => hplainm c (mem_trimBy hc)
  by_cases hsp : (spaceTrim raw).contains ' ' = true
  case neg =>
    rw [if_neg hsp]
    by_cases hd : ((spaceTrim raw).takeWhile isDigitChar).isEmpty = true
    · rw [if_pos (by simp [hd])]
    · have hnotin : ¬ (' ' ∈ spaceTrim raw) := fun hin => hsp (List.elem_iff.mpr hin)
      have hgap : ((spaceTrim raw).dropWhile isDigitChar).takeWhile isRegexSpace = [] := by
        cases hx : (spaceTrim raw).dropWhile isDigitChar with
        | nil => rfl
        | cons a b =>
            have ha_mem : a ∈ spaceTrim raw :=
              mem_of_dropWhile (by rw [hx]; exact List.mem_cons_self a b)
            have hane : (a == ' ') = false := by
              rw [beq_eq_false_iff_ne]; intro he; subst he; exact hnotin ha_mem
            have hra : isRegexSpace a = false := by
              rw [(plainChar_space_eq (htmem a ha_mem)).2.2, hane]
            rw [List.takeWhile_cons, if_neg (by simp [hra])]
      rw [if_pos (by simp [hgap])]
  case pos =>
    rw [if_pos hsp]
    have hin : ' ' ∈ spaceTrim raw := List.elem_iff.mp hsp
    obtain ⟨c0, t0, ht⟩ : ∃ c0 t0, spaceTrim raw = c0 :: t0 := by
      cases hx : spaceTrim raw with
      | nil => exact absurd hx htne
      | cons a b => exact ⟨a, b, rfl⟩
    have hc0 : (c0 == ' ') = false :=
      trimBy_head_false (p := fun c => c == ' ')
        (show trimBy (fun c => c == ' ') raw = c0 :: t0 from ht)
    have hw_ne : (spaceTrim raw).takeWhile (fun c => !(c == ' ')) ≠ [] := by
      rw [ht, List.takeWhile_cons, if_pos (by simp [hc0])]
      simp
    have hw_all : ∀ c ∈ (spaceTrim raw).takeWhile (fun c => !(c == ' ')),
        (c == ' ') = false := by
      intro c hc
      have := List.mem_takeWhile_imp hc
      simpa using this
    have hw_mem : ∀ c ∈ (spaceTrim raw).takeWhile (fun c => !(c == ' ')),
        plainChar c = true := fun c hc => htmem c (mem_of_takeWhile hc)
    have hrest0_ne : (spaceTrim raw).dropWhile (fun c => !(c == ' ')) ≠ [] := by
      intro he
      have := List.dropWhile_eq_nil_iff.mp he ' ' hin
      simp at this
    obtain ⟨r4, hr4⟩ : ∃ r4,
        (spaceTrim raw).dropWhile (fun c => !(c == ' ')) = ' ' :: r4 := by
      cases hx : (spaceTrim raw).dropWhile (fun c => !(c == ' ')) with
      | nil => exact absurd hx hrest0_ne
      | cons a b =>
          have ha := dropWhile_head_false hx
          have haeq : a = ' ' := by simpa using ha
          exact ⟨b, by rw [haeq]⟩
    have hdecomp : spaceTrim raw =
        (spaceTrim raw).takeWhile (fun c => !(c == ' ')) ++ ' ' :: r4 := by
      conv_lhs => rw [← List.takeWhile_append_dropWhile (fun c => !(c == ' '))
        (spaceTrim raw)]
      rw [hr4]
    have hr4ne : r4 ≠ [] := by
      intro he
      have hTrev : (trimBy (fun c => c == ' ') raw).reverse =
          ' ' :: ((spaceTrim raw).takeWhile (fun c => !(c == ' '))).reverse := by
        show (spaceTrim raw).reverse = _
        conv_lhs => rw [hdecomp]
        rw [he]
        simp [List.reverse_append]
      have := trimBy_last_false hTrev
      simp at this
    obtain ⟨d, rr, hdr⟩ : ∃ d rr, r4.reverse = d :: rr := by
      cases hx : r4.reverse with
      | nil =>
          rw [List.reverse_eq_nil_iff] at hx
          exact absurd hx hr4ne
      | cons a b => exact ⟨a, b, rfl⟩
    have hd_not_space : (d == ' ') = false := by
      have hTrev : (trimBy (fun c => c == ' ') raw).reverse =
          d :: (rr ++ ' ' :: ((spaceTrim raw).takeWhile (fun c => !(c == ' '))).reverse) := by
        show (spaceTrim raw).reverse = _
        conv_lhs => rw [hdecomp]
        simp [List.reverse_append, hdr]
      exact trimBy_last_false (p := fun c => c == ' ') hTrev
    have hd_mem_r4 : d ∈ r4 :=
      List.mem_reverse.mp (by rw [hdr]; exact List.mem_cons_self d rr)
    have hr4sub : ∀ c ∈ r4, c ∈ spaceTrim raw := by
      intro c hc
      exact mem_of_dropWhile (p := fun c => !(c == ' '))
        (by rw [hr4]; exact List.mem_cons_of_mem _ hc)
    have hr4mem : ∀ c ∈ r4, plainChar c = true := fun c hc => htmem c (hr4sub c hc)
    have hname_ne : trimBy (fun c => c == ' ') r4 ≠ [] := by
      intro he
      have := trimBy_eq_nil_all he d hd_mem_r4
      rw [hd_not_space] at this; cases this
    have hat4 : asciiTrim r4 = trimBy (fun c => c == ' ') r4 :=
      trimBy_congr (fun c hc => (plainChar_space_eq (hr4mem c hc)).1)
    rw [hr4, List.tail_cons, hat4]
    by_cases hwd : ((spaceTrim raw).takeWhile (fun c => !(c == ' '))).all isDigitChar = true
    · -- the first token is all digits: both readers accept or both reject
      have hwd' : ∀ c ∈ (spaceTrim raw).takeWhile (fun c => !(c == ' ')),
          isDigitChar c = true := List.all_eq_true.mp hwd
      have hdig : (spaceTrim raw).takeWhile isDigitChar =
          (spaceTrim raw).takeWhile (fun c => !(c == ' ')) := by
        conv_lhs => rw [hdecomp]
        rw [takeWhile_append_of_all _ hwd', List.takeWhile_cons, if_neg (by decide)]
        simp
      have hdrop : (spaceTrim raw).dropWhile isDigitChar = ' ' :: r4 := by
        conv_lhs => rw [hdecomp]
        rw [dropWhile_append_of_all _ hwd', List.dropWhile_cons, if_neg (by decide)]
      rw [hdig, hdrop]
      have hgap : (' ' :: r4).takeWhile isRegexSpace =
          ' ' :: r4.takeWhile isRegexSpace := by
        rw [List.takeWhile_cons, if_pos (by decide)]
      have hrestc : (' ' :: r4).dropWhile isRegexSpace =
          r4.dropWhile (fun c => c == ' ') := by
        rw [List.dropWhile_cons, if_pos (by decide)]
        exact dropWhile_congr (fun c hc => (plainChar_space_eq (hr4mem c hc)).2.2)
      rw [hgap, hrestc]
      have hrest_ne : r4.dropWhile (fun c => c == ' ') ≠ [] := by
        intro he
        have := List.dropWhile_eq_nil_iff.mp he d hd_mem_r4
        rw [hd_not_space] at this; cases this
      rw [if_neg (by simp [hw_ne, hrest_ne])]
      rw [goAtoi_all_digits_cases hw_ne hwd']
      by_cases hb : digitsToNat ((spaceTrim raw).takeWhile (fun c => !(c == ' '))) ≤
          2 ^ 63 - 1
      · rw [if_pos hb]
        -- quantity value is positive: the token-ok condition rules out value 0
        have hzero : digitsToNat ((spaceTrim raw).takeWhile (fun c => !(c == ' '))) ≠ 0 := by
          intro h0
          simp only [lineTokenOk, hsp, Bool.not_true, Bool.false_or,
            Bool.and_eq_true, Bool.not_eq_true'] at htok
          have h1 := htok.1
          rw [decide_eq_true hw_ne, hwd, decide_eq_true h0] at h1
          simp at h1
        have hpos : (0 : Int) <
            (digitsToNat ((spaceTrim raw).takeWhile (fun c => !(c == ' '))) : Int) := by
          exact_mod_cast Nat.pos_of_ne_zero hzero
        have hLname : goTrimSpace (r4.dropWhile (fun c => c == ' ')) =
            trimBy (fun c => c == ' ') r4 := by
          have h1 : goTrimSpace (r4.dropWhile (fun c => c == ' ')) =
              trimBy (fun c => c == ' ') (r4.dropWhile (fun c => c == ' ')) :=
            trimBy_congr (fun c hc =>
              (plainChar_space_eq (hr4mem c (mem_of_dropWhile hc))).2.1)
          rw [h1, trimBy_dropWhile]
        simp [hLname, hpos, List.isEmpty_iff, hname_ne]
      · rw [if_neg hb]
    · -- the first token is not all digits: both readers reject the line
      have hwdrop_ne : ((spaceTrim raw).takeWhile (fun c => !(c == ' '))).dropWhile
          isDigitChar ≠ [] := by
        intro he
        exact hwd (List.all_eq_true.mpr (List.dropWhile_eq_nil_iff.mp he))
      obtain ⟨c1, w2, hc1⟩ : ∃ c1 w2,
          ((spaceTrim raw).takeWhile (fun c => !(c == ' '))).dropWhile isDigitChar =
            c1 :: w2 := by
        cases hx : ((spaceTrim raw).takeWhile (fun c => !(c == ' '))).dropWhile
            isDigitChar with
        | nil => exact absurd hx hwdrop_ne
        | cons a b => exact ⟨a, b, rfl⟩
      have hc1_notdig : isDigitChar c1 = false := dropWhile_head_false hc1
      have hc1_mem : c1 ∈ (spaceTrim raw).takeWhile (fun c => !(c == ' ')) :=
        mem_of_dropWhile (by rw [hc1]; exact List.mem_cons_self c1 w2)
      have hc1_ns : (c1 == ' ') = false := hw_all c1 hc1_mem
      have hc1_rs : isRegexSpace c1 = false := by
        rw [(plainChar_space_eq (hw_mem c1 hc1_mem)).2.2, hc1_ns]
      have hwdecomp : (spaceTrim raw).takeWhile (fun c => !(c == ' ')) =
          ((spaceTrim raw).takeWhile (fun c => !(c == ' '))).takeWhile isDigitChar ++
            c1 :: w2 := by
        conv_lhs => rw [← List.takeWhile_append_dropWhile isDigitChar
          ((spaceTrim raw).takeWhile (fun c => !(c == ' ')))]
        rw [hc1]
      have hdw_all : ∀ c ∈ ((spaceTrim raw).takeWhile (fun c => !(c == ' '))).takeWhile
          isDigitChar, isDigitChar c = true := fun c hc => List.mem_takeWhile_imp hc
      have hdropT : (spaceTrim raw).dropWhile isDigitChar =
          c1 :: (w2 ++ ' ' :: r4) := by
        conv_lhs => rw [hdecomp]
        conv_lhs => rw [hwdecomp]
        rw [List.append_assoc, List.cons_append, dropWhile_append_of_all _ hdw_all,
          List.dropWhile_cons, if_neg (by simp [hc1_notdig])]
      have hgap0 : ((spaceTrim raw).dropWhile isDigitChar).takeWhile isRegexSpace = [] := by
        rw [hdropT, List.takeWhile_cons, if_neg (by simp [hc1_rs])]
      rw [if_pos (by simp [hgap0])]
      -- now the hand-rolled reader also rejects
      obtain ⟨cw, w', hwcons⟩ : ∃ cw w',
          (spaceTrim raw).takeWhile (fun c => !(c == ' ')) = cw :: w' := by
        cases hx : (spaceTrim raw).takeWhile (fun c => !(c == ' ')) with
        | nil => exact absurd hx hw_ne
        | cons a b => exact ⟨a, b, rfl⟩
      rw [hwcons]
      by_cases hcw_plus : cw = '+'
      · subst hcw_plus
        rw [goAtoi_plus]
        by_cases h1 : w' = []
        · rw [if_pos h1]
        rw [if_neg h1]
        by_cases h2 : w'.all isDigitChar = true
        · rw [if_pos h2]
          by_cases h3 : digitsToNat w' ≤ 2 ^ 63 - 1
          · rw [if_pos h3]
            -- the token-ok condition leaves only value 0 here
            have hval0 : digitsToNat w' = 0 := by
              simp only [lineTokenOk, hsp, Bool.not_true, Bool.false_or,
                Bool.and_eq_true, Bool.not_eq_true'] at htok
              have hm := htok.2
              rw [hwcons] at hm
              have hm2 : (decide (w' ≠ []) && w'.all isDigitChar &&
                  decide (1 ≤ digitsToNat w' ∧ digitsToNat w' ≤ 2 ^ 63 - 1)) = false := hm
              have hdec : decide (1 ≤ digitsToNat w' ∧
                  digitsToNat w' ≤ 2 ^ 63 - 1) = false := by
                by_contra hcon
                rw [Bool.not_eq_false] at hcon
                rw [decide_eq_true h1, h2, hcon] at hm2
                simp at hm2
              have := of_decide_eq_false hdec
              omega
            simp [hval0]
          · rw [if_neg h3]
        · rw [if_neg (by simp [h2])]
      by_cases hcw_minus : cw = '-'
      · subst hcw_minus
        rw [goAtoi_minus]
        by_cases h1 : w' = []
        · rw [if_pos h1]
        rw [if_neg h1]
        by_cases h2 : w'.all isDigitChar = true
        · rw [if_pos h2]
          by_cases h3 : digitsToNat w' ≤ 2 ^ 63
          · rw [if_pos h3]
            have hng : ¬((0 : Int) < -(digitsToNat w' : Int)) := by
              have : (0 : Int) ≤ (digitsToNat w' : Int) := Int.natCast_nonneg _
              omega
            simp [hng]
          · rw [if_neg h3]
        · rw [if_neg (by simp [h2])]
      · have hnall : (cw :: w').all isDigitChar = false := by
          rw [← hwcons]
          cases hx : ((spaceTrim raw).takeWhile (fun c => !(c == ' '))).all isDigitChar
          · rfl
          · exact absurd hx hwd
        rw [goAtoi_not_all_digits (beq_eq_false_iff_ne.mpr hcw_minus)
          (beq_eq_false_iff_ne.mpr hcw_plus) hnall]

theorem dropTrailingCR_of_plain {raw : List Char} (h : raw.all plainChar = true) :
    dropTrailingCR raw = raw := by
  unfold dropTrailingCR
  rw [if_neg]
  intro hcontra
  have hmem : '\r' ∈ raw := List.mem_of_mem_getLast? hcontra
  have hp := List.all_eq_true.mp h '\r' hmem
  exact absurd hp (by decide)

/-- C10 counterexample: on the one-line file `0 Island` the two readers
disagree: the regex-based `Ingester.IngestFile` produces the entry
`(0, Island)` while the hand-rolled `ingestDeckFile` produces no entry at
all (its `quantity > 0` check rejects the line). -/
theorem c10_counterexample :
    ingestFileCards ("0 Island".toList) = [(0, "Island".toList)] ∧
    ingestDeckFileCards ("0 Island".toList) = [] ∧
    ([((0 : Int), "Island".toList)] ≠ ([] : List (Int × List Char))) := by
  refine ⟨by decide, by decide, by decide⟩

/-- C10 (corrected): the two deck-file readers are not equivalent; they
disagree on quantity-0 lines (accepted only by the regex reader), on
`+`-signed in-range positive quantity tokens (accepted only by the
hand-rolled reader), and on lines containing whitespace other than the
plain space, which their differing whitespace classes trim and split
differently.  On every file avoiding those shapes — `fileOk` — both
readers produce the same card-entry sequence, and hence the same
`total_cards` and `unique_cards`. -/
theorem c10_amended_thm (content : List Char) (h : fileOk content = true) :
    ingestFileCards content = ingestDeckFileCards content ∧
    ingesterDeckOf content = deckIngesterDeckOf content := by
  have hlines : ∀ raw ∈ splitOnNl content, lineOk raw = true := List.all_eq_true.mp h
  have hcards : ingestFileCards content = ingestDeckFileCards content := by
    unfold ingestFileCards ingestDeckFileCards
    have hmap : (splitOnNl content).map dropTrailingCR = splitOnNl content := by
      have h1 : (splitOnNl content).map dropTrailingCR = (splitOnNl content).map id :=
        List.map_eq_map_iff.mpr (fun raw hraw => by
          have hok := hlines raw hraw
          rw [lineOk, Bool.and_eq_true] at hok
          exact dropTrailingCR_of_plain hok.1)
      rw [h1, List.map_id]
    rw [hmap]
    exact List.filterMap_congr (fun raw hraw => parseLine_agree raw (hlines raw hraw))
  refine ⟨hcards, ?_⟩
  unfold ingesterDeckOf deckIngesterDeckOf
  rw [show ingestFileCards content = ingestDeckFileCards content from hcards]

/-- C10 witness: on a well-formed file with a comment and a malformed line
both readers produce identical results. -/
theorem c10_witness :
    ingestFileCards ("4 Bolt\n1 Lotus\n# sideboard\nx y".toList) =
      ingestDeckFileCards ("4 Bolt\n1 Lotus\n# sideboard\nx y".toList) ∧
    ingesterDeckOf ("4 Bolt\n1 Lotus\n# sideboard\nx y".toList) =
      deckIngesterDeckOf ("4 Bolt\n1 Lotus\n# sideboard\nx y".toList) :=
  c10_amended_thm ("4 Bolt\n1 Lotus\n# sideboard\nx y".toList) (by decide)
